import Mathlib

/-!
Verification of the hexmedia ingest core against its specification.

The definitions below are shallow embeddings of the Python source:
  * `intToKey` / `keyToInt`  — `IngestPlanner._bucket_name_converter`
    (src/hexmedia/domain/policies/ingest_planner.py, both directions of the
    base-36 bucket-key conversion, including its guard conditions and the
    out-of-range character lookup that raises IndexError in Python);
  * `chooseBucket`           — `IngestPlanner._choose_bucket`;
  * `planFrom` / `planViaRepo` — `IngestPlanner.plan` and
    `IngestPlanner.get_bucket_counts` (repository fast path);
  * `processOne` / `runWorker` — `IngestWorker.run` together with
    `SqlAlchemyMediaRepo.create_media_item` and the savepoint / session
    rollback semantics of the surrounding transaction;
  * `collageCanvas`          — the geometry of `VideoThumbnail.generate_collage`.

Machine integers do not occur (Python ints are unbounded); fallible code is
returned as `Except`/`Option` values, mirroring raised exceptions.
-/

namespace Hexmedia

/-! ### Base-36 bucket keys (`IngestPlanner._bucket_name_converter`) -/

/-- Alphabet `string.digits + string.ascii_lowercase` used for bucket keys. -/
def bucketChars : List Char :=
  "0123456789abcdefghijklmnopqrstuvwxyz".data

/-- Index of a character in a list, mirroring the Python dict
`ch -> i for i, ch in enumerate(digits)` (a `KeyError` becomes `none`). -/
def charIndex (c : Char) : List Char → Option Nat
  | [] => none
  | d :: ds => if d = c then some 0 else (charIndex c ds).map (· + 1)

/-- Value of a bucket-alphabet character; `none` when not in the alphabet. -/
def digitVal? (c : Char) : Option Nat :=
  charIndex c bucketChars

/-- Character of the bucket alphabet at a given index (`digits[i]`,
`none` models Python's IndexError). -/
def charAt? (i : Nat) : Option Char :=
  bucketChars.get? i

/-- Lowercase a string character-wise (`str.lower`, ASCII range). -/
def lowerStr (s : String) : String :=
  ⟨s.data.map Char.toLower⟩

/-- Left-pad a string to length 3 with the character 0 (`str.rjust(3, "0")`). -/
def padLeft3 (s : String) : String :=
  ⟨List.replicate (3 - s.data.length) '0' ++ s.data⟩

/-- Embedding of `_bucket_name_converter` applied to an `int`: convert a
base-10 integer to a 3-character base-36 string.  The source guard is
`0 < val <= 36 ** 3`; inside the guard the three characters are looked up
as `digits[a]`, `digits[b]`, `digits[c]`, where `a = val // 1296` can be
out of range (Python then raises IndexError). -/
def intToKey (val : Nat) : Except String String :=
  if 0 < val ∧ val ≤ 46656 then
    match charAt? (val / 1296), charAt? (val / 36 % 36), charAt? (val % 36) with
    | some a, some b, some c => .ok ⟨[a, b, c]⟩
    | _, _, _ => .error "IndexError: string index out of range"
  else
    .error "n must be in range 0..46655 (fits in 3 base-36 chars)"

/-- Embedding of `_bucket_name_converter` applied to a `str`: lowercase,
left-pad to 3 characters and read as base 36.  The source guard is
`len(val) < 4`; an alphabet miss raises ValueError. -/
def keyToInt (s : String) : Except String Nat :=
  if s.data.length < 4 then
    match (padLeft3 (lowerStr s)).data with
    | [x, y, z] =>
      match digitVal? x, digitVal? y, digitVal? z with
      | some a, some b, some c => .ok (a * 1296 + b * 36 + c)
      | _, _, _ => .error "invalid character: only 0-9 and a-z are allowed"
    | _ => .error "unreachable: padding yields exactly three characters"
  else
    .error "invalid value: string inputs must be <= 3 characters"

/-- Specification-side base-36 reading of a key (digit-fold, most
significant first). -/
def specVal (s : String) : Nat :=
  s.data.foldl (fun a c => a * 36 + (digitVal? c).getD 0) 0

/-- A valid bucket key: exactly 3 characters over `0-9a-z`. -/
def isValidKey (s : String) : Bool :=
  s.data.length == 3 && s.data.all (fun c => decide (c ∈ bucketChars))

/-! Finite facts about the 36-character alphabet, all settled by `decide`. -/

theorem digitVal_lt_36 : ∀ c ∈ bucketChars, (digitVal? c).getD 0 < 36 := by
  decide

theorem digitVal_isSome : ∀ c ∈ bucketChars, (digitVal? c).isSome = true := by
  decide

theorem charAt_digitVal : ∀ c ∈ bucketChars,
    charAt? ((digitVal? c).getD 0) = some c := by
  decide

theorem digitVal_charAt : ∀ i, i < 36 → ∀ c, charAt? i = some c →
    (digitVal? c).getD 0 = i := by
  decide

theorem charAt_isSome_of_lt : ∀ i, i < 36 → (charAt? i).isSome = true := by
  decide

theorem charAt_mem : ∀ i, i < 36 → ∀ c, charAt? i = some c → c ∈ bucketChars := by
  decide

theorem lower_fixed : ∀ c ∈ bucketChars, Char.toLower c = c := by
  decide

theorem digitVal_zero_char : ∀ c ∈ bucketChars, (digitVal? c).getD 0 = 0 → c = '0' := by
  decide

theorem digitVal_inj : ∀ c ∈ bucketChars, ∀ d ∈ bucketChars,
    (digitVal? c).getD 0 = (digitVal? d).getD 0 → c = d := by
  decide

theorem digitVal_eq_some (c : Char) (hc : c ∈ bucketChars) :
    digitVal? c = some ((digitVal? c).getD 0) := by
  have h := digitVal_isSome c hc
  cases hdv : digitVal? c with
  | none => rw [hdv] at h; simp at h
  | some d => simp

/-- Destructure a valid key into its three alphabet characters. -/
theorem validKey_data (s : String) (h : isValidKey s = true) :
    ∃ c0 c1 c2, s.data = [c0, c1, c2] ∧
      c0 ∈ bucketChars ∧ c1 ∈ bucketChars ∧ c2 ∈ bucketChars := by
  unfold isValidKey at h
  rw [Bool.and_eq_true] at h
  obtain ⟨hlen, hall⟩ := h
  rw [Nat.beq_eq_true_eq] at hlen
  rw [List.all_eq_true] at hall
  match hd : s.data with
  | [c0, c1, c2] =>
    refine ⟨c0, c1, c2, rfl, ?_, ?_, ?_⟩ <;>
      [have := hall c0; have := hall c1; have := hall c2] <;>
      simp_all
  | [] => rw [hd] at hlen; simp at hlen
  | [_] => rw [hd] at hlen; simp at hlen
  | [_, _] => rw [hd] at hlen; simp at hlen
  | _ :: _ :: _ :: _ :: _ => rw [hd] at hlen; simp at hlen

/-- For a valid key, `keyToInt` succeeds and returns the base-36 reading,
which lies in `0..46655`. -/
theorem keyToInt_valid (s : String) (h : isValidKey s = true) :
    keyToInt s = .ok (specVal s) ∧ specVal s ≤ 46655 := by
  obtain ⟨c0, c1, c2, hd, h0, h1, h2⟩ := validKey_data s h
  have hlow : lowerStr s = s := by
    unfold lowerStr
    cases s with
    | mk data =>
      simp only [hd] at *
      simp [List.map, lower_fixed c0 h0, lower_fixed c1 h1, lower_fixed c2 h2, hd]
  have hpad : (padLeft3 (lowerStr s)).data = [c0, c1, c2] := by
    rw [hlow]; unfold padLeft3; rw [hd]; simp
  set v0 := (digitVal? c0).getD 0 with hv0
  set v1 := (digitVal? c1).getD 0 with hv1
  set v2 := (digitVal? c2).getD 0 with hv2
  have hb0 := digitVal_lt_36 c0 h0
  have hb1 := digitVal_lt_36 c1 h1
  have hb2 := digitVal_lt_36 c2 h2
  have hspec : specVal s = ((0 * 36 + v0) * 36 + v1) * 36 + v2 := by
    unfold specVal; rw [hd]; rfl
  have r0 : digitVal? c0 = some v0 := by rw [hv0]; exact digitVal_eq_some c0 h0
  have r1 : digitVal? c1 = some v1 := by rw [hv1]; exact digitVal_eq_some c1 h1
  have r2 : digitVal? c2 = some v2 := by rw [hv2]; exact digitVal_eq_some c2 h2
  constructor
  · unfold keyToInt
    rw [if_pos (by rw [hd]; simp)]
    rw [hpad]
    simp only [r0, r1, r2]
    rw [hspec]
    congr 1
    omega
  · rw [hspec]; omega

/-- For `0 < v ≤ 46655`, `intToKey` succeeds and yields a valid key whose
base-36 reading is `v`. -/
theorem intToKey_spec (v : Nat) (hpos : 0 < v) (hle : v ≤ 46655) :
    ∃ s, intToKey v = .ok s ∧ isValidKey s = true ∧ specVal s = v := by
  have hd0 : v / 1296 < 36 := by omega
  have hd1 : v / 36 % 36 < 36 := Nat.mod_lt _ (by omega)
  have hd2 : v % 36 < 36 := Nat.mod_lt _ (by omega)
  have hs0 := charAt_isSome_of_lt _ hd0
  have hs1 := charAt_isSome_of_lt _ hd1
  have hs2 := charAt_isSome_of_lt _ hd2
  cases hc0 : charAt? (v / 1296) with
  | none => rw [hc0] at hs0; simp at hs0
  | some c0 =>
  cases hc1 : charAt? (v / 36 % 36) with
  | none => rw [hc1] at hs1; simp at hs1
  | some c1 =>
  cases hc2 : charAt? (v % 36) with
  | none => rw [hc2] at hs2; simp at hs2
  | some c2 =>
  refine ⟨⟨[c0, c1, c2]⟩, ?_, ?_, ?_⟩
  · unfold intToKey
    rw [if_pos (by omega)]
    rw [hc0, hc1, hc2]
  · have m0 := charAt_mem _ hd0 c0 hc0
    have m1 := charAt_mem _ hd1 c1 hc1
    have m2 := charAt_mem _ hd2 c2 hc2
    simp [isValidKey, m0, m1, m2]
  · have e0 := digitVal_charAt _ hd0 c0 hc0
    have e1 := digitVal_charAt _ hd1 c1 hc1
    have e2 := digitVal_charAt _ hd2 c2 hc2
    have hspec : specVal ⟨[c0, c1, c2]⟩ =
        ((0 * 36 + (digitVal? c0).getD 0) * 36 + (digitVal? c1).getD 0) * 36 +
          (digitVal? c2).getD 0 := rfl
    rw [hspec, e0, e1, e2]
    try omega

/-- For a valid key other than `"000"`, converting its value back with
`intToKey` returns the original key. -/
theorem intToKey_specVal (s : String) (h : isValidKey s = true) (hne : s ≠ "000") :
    intToKey (specVal s) = .ok s := by
  obtain ⟨c0, c1, c2, hd, h0, h1, h2⟩ := validKey_data s h
  set v0 := (digitVal? c0).getD 0 with hv0
  set v1 := (digitVal? c1).getD 0 with hv1
  set v2 := (digitVal? c2).getD 0 with hv2
  have hb0 := digitVal_lt_36 c0 h0
  have hb1 := digitVal_lt_36 c1 h1
  have hb2 := digitVal_lt_36 c2 h2
  have hspec : specVal s = ((0 * 36 + v0) * 36 + v1) * 36 + v2 := by
    unfold specVal; rw [hd]; rfl
  have hpos : 0 < specVal s := by
    rcases Nat.eq_zero_or_pos (specVal s) with hz | hp
    · exfalso
      have hz0 : v0 = 0 := by omega
      have hz1 : v1 = 0 := by omega
      have hz2 : v2 = 0 := by omega
      have e0 := digitVal_zero_char c0 h0 (by rw [← hv0, hz0])
      have e1 := digitVal_zero_char c1 h1 (by rw [← hv1, hz1])
      have e2 := digitVal_zero_char c2 h2 (by rw [← hv2, hz2])
      apply hne
      cases s with
      | mk data =>
        simp only at hd
        rw [hd, e0, e1, e2]
    · exact hp
  have hle : specVal s ≤ 46655 := by rw [hspec]; omega
  have hq0 : specVal s / 1296 = v0 := by omega
  have hq1 : specVal s / 36 % 36 = v1 := by omega
  have hq2 : specVal s % 36 = v2 := by omega
  unfold intToKey
  rw [if_pos (by omega)]
  rw [hq0, hq1, hq2]
  rw [charAt_digitVal c0 h0, charAt_digitVal c1 h1, charAt_digitVal c2 h2]
  cases s with
  | mk data => simp only at hd; rw [hd]

/-- Base-36 reading is injective on valid keys. -/
theorem specVal_injective (s t : String) (hs : isValidKey s = true)
    (ht : isValidKey t = true) (h : specVal s = specVal t) : s = t := by
  obtain ⟨c0, c1, c2, hds, hs0, hs1, hs2⟩ := validKey_data s hs
  obtain ⟨d0, d1, d2, hdt, ht0, ht1, ht2⟩ := validKey_data t ht
  have hspecs : specVal s = ((0 * 36 + (digitVal? c0).getD 0) * 36 +
      (digitVal? c1).getD 0) * 36 + (digitVal? c2).getD 0 := by
    unfold specVal; rw [hds]; rfl
  have hspect : specVal t = ((0 * 36 + (digitVal? d0).getD 0) * 36 +
      (digitVal? d1).getD 0) * 36 + (digitVal? d2).getD 0 := by
    unfold specVal; rw [hdt]; rfl
  have hb0 := digitVal_lt_36 c0 hs0
  have hb1 := digitVal_lt_36 c1 hs1
  have hb2 := digitVal_lt_36 c2 hs2
  have hb0' := digitVal_lt_36 d0 ht0
  have hb1' := digitVal_lt_36 d1 ht1
  have hb2' := digitVal_lt_36 d2 ht2
  have e0 : (digitVal? c0).getD 0 = (digitVal? d0).getD 0 := by omega
  have e1 : (digitVal? c1).getD 0 = (digitVal? d1).getD 0 := by omega
  have e2 : (digitVal? c2).getD 0 = (digitVal? d2).getD 0 := by omega
  have f0 := digitVal_inj c0 hs0 d0 ht0 e0
  have f1 := digitVal_inj c1 hs1 d1 ht1 e1
  have f2 := digitVal_inj c2 hs2 d2 ht2 e2
  cases s with
  | mk ds =>
    cases t with
    | mk dt =>
      simp only at hds hdt
      rw [hds, hdt, f0, f1, f2]

/-! ### Bucket selection (`IngestPlanner._choose_bucket`, `get_bucket_counts`,
`_sort_counts`) -/

/-- Python-style lexicographic strict comparison of character lists by
code point (`s1 < s2` on `str`). -/
def listLtB : List Char → List Char → Bool
  | [], [] => false
  | [], _ :: _ => true
  | _ :: _, [] => false
  | a :: as, b :: bs =>
    if a.toNat < b.toNat then true
    else if b.toNat < a.toNat then false
    else listLtB as bs

/-- Strict `<` on strings, by code points (Python string comparison). -/
def strLtB (a b : String) : Bool :=
  listLtB a.data b.data

/-- Non-strict `<=` on strings: not strictly greater. -/
def strLeB (a b : String) : Bool :=
  ! strLtB b a

theorem listLtB_irrefl : ∀ as, listLtB as as = false := by
  intro as
  induction as with
  | nil => rfl
  | cons a as ih => simp [listLtB, ih]

theorem listLtB_asymm : ∀ as bs, listLtB as bs = true → listLtB bs as = false := by
  intro as
  induction as with
  | nil => intro bs h; cases bs <;> simp_all [listLtB]
  | cons a as ih =>
    intro bs h
    cases bs with
    | nil => simp [listLtB] at h
    | cons b bs =>
      simp only [listLtB] at h ⊢
      by_cases h1 : a.toNat < b.toNat
      · have h2 : ¬ b.toNat < a.toNat := by omega
        rw [if_neg h2, if_pos h1]
      · by_cases h2 : b.toNat < a.toNat
        · rw [if_neg h1, if_pos h2] at h
          cases h
        · rw [if_neg h1, if_neg h2] at h
          rw [if_neg h2, if_neg h1]
          exact ih bs h

theorem char_toNat_inj (a b : Char) (h : a.toNat = b.toNat) : a = b :=
  Char.eq_of_val_eq (UInt32.eq_of_toBitVec_eq (BitVec.eq_of_toNat_eq h))

theorem listLtB_trichotomy : ∀ as bs,
    listLtB as bs = true ∨ listLtB bs as = true ∨ as = bs := by
  intro as
  induction as with
  | nil => intro bs; cases bs <;> simp [listLtB]
  | cons a as ih =>
    intro bs
    cases bs with
    | nil => simp [listLtB]
    | cons b bs =>
      by_cases h1 : a.toNat < b.toNat
      · left; simp only [listLtB]; rw [if_pos h1]
      · by_cases h2 : b.toNat < a.toNat
        · right; left; simp only [listLtB]; rw [if_pos h2]
        · have hab : a = b := char_toNat_inj a b (by omega)
          subst hab
          rcases ih bs with h | h | h
          · left
            simp only [listLtB]
            rw [if_neg (Nat.lt_irrefl _), if_neg (Nat.lt_irrefl _)]
            exact h
          · right; left
            simp only [listLtB]
            rw [if_neg (Nat.lt_irrefl _), if_neg (Nat.lt_irrefl _)]
            exact h
          · right; right; rw [h]

theorem listLtB_trans : ∀ as bs cs, listLtB as bs = true →
    listLtB bs cs = true → listLtB as cs = true := by
  intro as
  induction as with
  | nil =>
    intro bs cs h1 h2
    cases bs with
    | nil => simp [listLtB] at h1
    | cons b bs =>
      cases cs with
      | nil => simp [listLtB] at h2
      | cons c cs => simp [listLtB]
  | cons a as ih =>
    intro bs cs h1 h2
    cases bs with
    | nil => simp [listLtB] at h1
    | cons b bs =>
      cases cs with
      | nil => simp [listLtB] at h2
      | cons c cs =>
        simp only [listLtB] at h1 h2 ⊢
        by_cases hab : a.toNat < b.toNat
        · by_cases hbc : b.toNat < c.toNat
          · rw [if_pos (by omega)]
          · rw [if_neg hbc] at h2
            by_cases hcb : c.toNat < b.toNat
            · rw [if_pos hcb] at h2; cases h2
            · rw [if_pos (by omega)]
        · rw [if_neg hab] at h1
          by_cases hba : b.toNat < a.toNat
          · rw [if_pos hba] at h1; cases h1
          · rw [if_neg hba] at h1
            by_cases hbc : b.toNat < c.toNat
            · rw [if_pos (by omega)]
            · rw [if_neg hbc] at h2
              by_cases hcb : c.toNat < b.toNat
              · rw [if_pos hcb] at h2; cases h2
              · rw [if_neg hcb] at h2
                rw [if_neg (by omega), if_neg (by omega)]
                exact ih bs cs h1 h2

theorem strLeB_refl (a : String) : strLeB a a = true := by
  simp [strLeB, strLtB, listLtB_irrefl]

theorem strLeB_of_ltB (a b : String) (h : strLtB a b = true) : strLeB a b = true := by
  simp [strLeB, strLtB] at *
  exact listLtB_asymm _ _ h

theorem strLeB_of_not_ltB (a b : String) (h : strLtB b a = false) :
    strLeB a b = true := by
  simp [strLeB, h]

theorem strLeB_trans (a b c : String) (h1 : strLeB a b = true)
    (h2 : strLeB b c = true) : strLeB a c = true := by
  simp only [strLeB, strLtB, Bool.not_eq_true'] at h1 h2 ⊢
  by_cases hca : listLtB c.data a.data = true
  · rcases listLtB_trichotomy b.data c.data with hbc | hcb | hbc
    · have := listLtB_trans _ _ _ hbc hca
      rw [this] at h1; cases h1
    · rw [hcb] at h2; cases h2
    · rw [hbc] at h1; rw [hca] at h1; cases h1
  · simp at hca; exact hca

/-- Python `min` over a nonempty list of strings (keeps the current value
unless the next one is strictly smaller, comparing code points). -/
def minStr (x : String) (xs : List String) : String :=
  xs.foldl (fun a b => if strLtB b a then b else a) x

/-- Python `max` over a nonempty list of strings. -/
def maxStr (x : String) (xs : List String) : String :=
  xs.foldl (fun a b => if strLtB a b then b else a) x

/-- Python `min` over a nonempty list of naturals. -/
def minNat (x : Nat) (xs : List Nat) : Nat :=
  xs.foldl (fun a b => if b < a then b else a) x

theorem minStr_mem : ∀ (xs : List String) (x : String), minStr x xs ∈ x :: xs := by
  intro xs
  induction xs with
  | nil => intro x; simp [minStr, List.foldl]
  | cons y ys ih =>
    intro x
    simp only [minStr, List.foldl] at ih ⊢
    rcases List.mem_cons.mp (ih (if strLtB y x then y else x)) with h | h
    · rw [h]
      by_cases hc : strLtB y x = true <;> simp [hc, List.mem_cons]
    · simp [List.mem_cons, h]

theorem minStr_leB : ∀ (xs : List String) (x y : String),
    y ∈ x :: xs → strLeB (minStr x xs) y = true := by
  intro xs
  induction xs with
  | nil =>
    intro x y hy
    simp only [List.mem_cons, List.not_mem_nil, or_false] at hy
    simp [minStr, List.foldl, hy, strLeB_refl]
  | cons a ys ih =>
    intro x y hy
    simp only [minStr, List.foldl] at ih ⊢
    have hlex : strLeB (if strLtB a x then a else x) x = true := by
      by_cases hc : strLtB a x = true
      · rw [if_pos hc]; exact strLeB_of_ltB a x hc
      · rw [if_neg hc]; exact strLeB_refl x
    have hlea : strLeB (if strLtB a x then a else x) a = true := by
      by_cases hc : strLtB a x = true
      · rw [if_pos hc]; exact strLeB_refl a
      · rw [if_neg hc]
        exact strLeB_of_not_ltB x a (Bool.not_eq_true _ ▸ hc)
    rcases List.mem_cons.mp hy with rfl | hy'
    · exact strLeB_trans _ _ _ (ih _ _ (List.mem_cons_self _ _)) hlex
    rcases List.mem_cons.mp hy' with rfl | hy''
    · exact strLeB_trans _ _ _ (ih _ _ (List.mem_cons_self _ _)) hlea
    · exact ih _ _ (List.mem_cons.mpr (Or.inr hy''))

theorem maxStr_mem : ∀ (xs : List String) (x : String), maxStr x xs ∈ x :: xs := by
  intro xs
  induction xs with
  | nil => intro x; simp [maxStr, List.foldl]
  | cons y ys ih =>
    intro x
    simp only [maxStr, List.foldl] at ih ⊢
    rcases List.mem_cons.mp (ih (if strLtB x y then y else x)) with h | h
    · rw [h]
      by_cases hc : strLtB x y = true <;> simp [hc, List.mem_cons]
    · simp [List.mem_cons, h]

theorem maxStr_geB : ∀ (xs : List String) (x y : String),
    y ∈ x :: xs → strLeB y (maxStr x xs) = true := by
  intro xs
  induction xs with
  | nil =>
    intro x y hy
    simp only [List.mem_cons, List.not_mem_nil, or_false] at hy
    simp [maxStr, List.foldl, hy, strLeB_refl]
  | cons a ys ih =>
    intro x y hy
    simp only [maxStr, List.foldl] at ih ⊢
    have hgex : strLeB x (if strLtB x a then a else x) = true := by
      by_cases hc : strLtB x a = true
      · rw [if_pos hc]; exact strLeB_of_ltB x a hc
      · rw [if_neg hc]; exact strLeB_refl x
    have hgea : strLeB a (if strLtB x a then a else x) = true := by
      by_cases hc : strLtB x a = true
      · rw [if_pos hc]; exact strLeB_refl a
      · rw [if_neg hc]
        exact strLeB_of_not_ltB a x (Bool.not_eq_true _ ▸ hc)
    rcases List.mem_cons.mp hy with rfl | hy'
    · exact strLeB_trans _ _ _ hgex (ih _ _ (List.mem_cons_self _ _))
    rcases List.mem_cons.mp hy' with rfl | hy''
    · exact strLeB_trans _ _ _ hgea (ih _ _ (List.mem_cons_self _ _))
    · exact ih _ _ (List.mem_cons.mpr (Or.inr hy''))

theorem minNat_mem : ∀ (xs : List Nat) (x : Nat), minNat x xs ∈ x :: xs := by
  intro xs
  induction xs with
  | nil => intro x; simp [minNat, List.foldl]
  | cons y ys ih =>
    intro x
    simp only [minNat, List.foldl] at ih ⊢
    rcases List.mem_cons.mp (ih (if y < x then y else x)) with h | h
    · rw [h]
      by_cases hc : y < x <;> simp [hc, List.mem_cons]
    · simp [List.mem_cons, h]

theorem minNat_le : ∀ (xs : List Nat) (x y : Nat), y ∈ x :: xs → minNat x xs ≤ y := by
  intro xs
  induction xs with
  | nil =>
    intro x y hy
    simp only [List.mem_cons, List.not_mem_nil, or_false] at hy
    simp [minNat, List.foldl, hy]
  | cons a ys ih =>
    intro x y hy
    simp only [minNat, List.foldl] at ih ⊢
    have hlex : (if a < x then a else x) ≤ x := by
      by_cases hc : a < x <;> simp [hc, le_of_lt]
    have hlea : (if a < x then a else x) ≤ a := by
      by_cases hc : a < x <;> simp [hc, le_of_not_lt]
    rcases List.mem_cons.mp hy with rfl | hy'
    · exact le_trans (ih _ _ (List.mem_cons_self _ _)) hlex
    rcases List.mem_cons.mp hy' with rfl | hy''
    · exact le_trans (ih _ _ (List.mem_cons_self _ _)) hlea
    · exact ih _ _ (List.mem_cons.mpr (Or.inr hy''))

/-- Bucket counts: the planner's `counts` dict as an association list
(`dict` keys are unique; insertion order is irrelevant to `min`/`max`). -/
abbrev Counts : Type := List (String × Nat)

/-- Value of `min(list(counts.values()))` (0 for the empty dict, which the
source never queries). -/
def countsMin (counts : Counts) : Nat :=
  match counts with
  | [] => 0
  | kv :: rest => minNat kv.2 (rest.map Prod.snd)

/-- Value of `max(list(counts.keys()))`. -/
def countsMaxKey (counts : Counts) : String :=
  match counts with
  | [] => "000"
  | kv :: rest => maxStr kv.1 (rest.map Prod.fst)

/-- Embedding of `IngestPlanner._choose_bucket`: with a nonempty counts
dict, take the lexicographically smallest key among those with the minimal
count if that count is below `bucketMax`; otherwise convert the largest key
to its base-36 value, add one, and convert back (conversion failures
propagate, as the uncaught Python exceptions do).  Empty counts give
`"000"`. -/
def chooseBucket (bucketMax : Nat) (counts : Counts) : Except String String :=
  match counts with
  | [] => .ok "000"
  | kv :: rest =>
    if minNat kv.2 (rest.map Prod.snd) < bucketMax then
      match ((kv :: rest).filter
          (fun p => p.2 = minNat kv.2 (rest.map Prod.snd))).map Prod.fst with
      | [] => .error "unreachable: the minimum count is attained"
      | b :: bs => .ok (minStr b bs)
    else
      match keyToInt (maxStr kv.1 (rest.map Prod.fst)) with
      | .error e => .error e
      | .ok v => intToKey (v + 1)

/-- Embedding of `counts[bucket] += 1` on a `defaultdict(int)`: increment an
existing key in place, or append the new key with count 1. -/
def bump : Counts → String → Counts
  | [], k => [(k, 1)]
  | (k', v) :: rest, k =>
    if k' = k then (k', v + 1) :: rest else (k', v) :: bump rest k

/-- Stable insertion (descending by count) used to mirror
`sorted(ct.items(), key=lambda x: x[1], reverse=True)`: a new element goes
after every element with a count at least as large. -/
def insertDescByCount (x : String × Nat) : Counts → Counts
  | [] => [x]
  | y :: ys => if x.2 ≤ y.2 then y :: insertDescByCount x ys else x :: y :: ys

/-- Embedding of `IngestPlanner._sort_counts`: stable sort of the counts
dict, descending by count (the result feeds only `min`/`max` queries, so
the order is semantically inert). -/
def sortCounts (counts : Counts) : Counts :=
  counts.foldl (fun acc x => insertDescByCount x acc) []

/-- Embedding of `IngestPlanner.get_bucket_counts` on the repository fast
path: `counts[b] = int(n)` for every pair returned by
`count_media_items_by_bucket()` — the keys are used verbatim, with no
normalization — then `_sort_counts`. -/
def getBucketCountsFast (repoCounts : List (String × Nat)) : Counts :=
  sortCounts repoCounts

/-! ### Plan construction (`IngestPlanner.plan`) -/

/-- Configured extension sets and the per-bucket capacity
(`hexmedia_bucket_max`). -/
structure PlannerCfg where
  videoExts : List String
  imageExts : List String
  sidecarExts : List String
  bucketMax : Nat

/-- Whitespace stripping from both ends (`str.strip()`). -/
def trimChars (l : List Char) : List Char :=
  ((l.dropWhile Char.isWhitespace).reverse.dropWhile Char.isWhitespace).reverse

/-- Normalization `e.strip().lower()` applied to a configured extension. -/
def normExt (e : String) : String :=
  lowerStr ⟨trimChars e.data⟩

/-- Normalized video extension set. -/
def videoSet (cfg : PlannerCfg) : List String := cfg.videoExts.map normExt

/-- Normalized image extension set. -/
def imageSet (cfg : PlannerCfg) : List String := cfg.imageExts.map normExt

/-- Normalized sidecar extension set. -/
def sidecarSet (cfg : PlannerCfg) : List String := cfg.sidecarExts.map normExt

/-- Union of all supported extension sets. -/
def allExts (cfg : PlannerCfg) : List String :=
  videoSet cfg ++ imageSet cfg ++ sidecarSet cfg

/-- Embedding of `IngestPlanner._classify_kind`. -/
def classifyKind (cfg : PlannerCfg) (ext : String) : String :=
  if ext ∈ videoSet cfg then "video"
  else if ext ∈ imageSet cfg then "image"
  else if ext ∈ sidecarSet cfg then "sidecar"
  else "unknown"

/-- Index (from the left) of the last dot in a list of characters. -/
def lastDotIdx (l : List Char) : Option Nat :=
  match l.reverse.findIdx? (· = '.') with
  | some j => some (l.length - 1 - j)
  | none => none

/-- Split a character list on the path separator (the grouping of
`str.split("/")`). -/
def splitOnSlash : List Char → List (List Char)
  | [] => [[]]
  | c :: cs =>
    match splitOnSlash cs with
    | [] => [[]]
    | g :: gs => if c = '/' then [] :: g :: gs else (c :: g) :: gs

/-- Embedding of `IngestPlanner._ext_of`: `p.suffix[1:].lower()` when the
path has a suffix, else the empty string.  `pathlib` takes the part of the
final component after its last dot, provided that dot is neither the first
nor the last character of the component. -/
def extOf (p : String) : String :=
  let nm := (splitOnSlash p.data).getLastD []
  match lastDotIdx nm with
  | some i =>
    if 0 < i ∧ i < nm.length - 1 then lowerStr ⟨nm.drop (i + 1)⟩ else ""
  | none => ""

/-- Shape of the planner's output rows (the `IngestPlanItem` TypedDict in
`ingest_planner.py`). -/
structure PlanItem where
  src : String
  ext : String
  kind : String
  supported : Bool
  bucket : String
  item : String
  media_folder : String
  identity_name : String
  dest_rel_dir : String
  dest_filename : String
deriving DecidableEq, Repr

/-- Identity triplet of a plan item: (bucket, item, extension). -/
def tripletOf (pi : PlanItem) : String × String × String :=
  (pi.bucket, pi.item, pi.ext)

/-- Embedding of `IngestPlanner._identity_for`: the first 12 characters of
the SHA-1 hex digest of the path's basis string.  `digestOfBasis` abstracts
`hashlib.sha1(basis(p)).hexdigest()` for a fixed filesystem environment; a
real hex digest always has 40 characters. -/
def identityFor (digestOfBasis : String → String) (p : String) : String :=
  ⟨(digestOfBasis p).data.take 12⟩

/-- Main loop of `IngestPlanner.plan`: classify, pick a bucket (for
supported and unsupported files alike), generate the identity, emit the
item, and increment the chosen bucket's in-memory count before the next
file. -/
def planGo (cfg : PlannerCfg) (identityOf : String → String) :
    Counts → List String → Except String (List PlanItem)
  | _, [] => .ok []
  | counts, src :: rest =>
    match chooseBucket cfg.bucketMax counts with
    | .error e => .error e
    | .ok bucket =>
      let ext := extOf src
      let identity := identityOf src
      let item : PlanItem :=
        { src := src
          ext := ext
          kind := classifyKind cfg ext
          supported := decide (ext ∈ allExts cfg)
          bucket := bucket
          item := identity
          media_folder := bucket
          identity_name := identity
          dest_rel_dir := bucket ++ "/" ++ identity
          dest_filename := if ext ≠ "" then identity ++ "." ++ ext else identity }
      match planGo cfg identityOf (bump counts bucket) rest with
      | .error e => .error e
      | .ok items => .ok (item :: items)

/-- Embedding of `IngestPlanner.plan` starting from an explicit counts
dict (the result of `get_bucket_counts`). -/
def planFrom (cfg : PlannerCfg) (identityOf : String → String)
    (counts : Counts) (files : List String) : Except String (List PlanItem) :=
  planGo cfg identityOf counts files

/-- Embedding of `IngestPlanner.plan` when `get_bucket_counts` uses the
repository fast path `count_media_items_by_bucket`. -/
def planViaRepo (cfg : PlannerCfg) (identityOf : String → String)
    (repoCounts : List (String × Nat)) (files : List String) :
    Except String (List PlanItem) :=
  planGo cfg identityOf (getBucketCountsFast repoCounts) files

/-- Bucket sequence determined by the counts alone: the buckets the planner
assigns to `n` consecutive files, independent of which files they are. -/
def chainBuckets (bucketMax : Nat) : Counts → Nat → Except String (List String)
  | _, 0 => .ok []
  | counts, n + 1 =>
    match chooseBucket bucketMax counts with
    | .error e => .error e
    | .ok b =>
      match chainBuckets bucketMax (bump counts b) n with
      | .error e => .error e
      | .ok bs => .ok (b :: bs)

/-- Selection branch of `_choose_bucket`: when the minimal count is below
capacity, the result is a key holding the minimal count, lexicographically
least among the tied keys. -/
theorem chooseBucket_select (cap : Nat) (kv : String × Nat)
    (rest : List (String × Nat)) (h : countsMin (kv :: rest) < cap) :
    ∃ r, chooseBucket cap (kv :: rest) = .ok r ∧
      (r, countsMin (kv :: rest)) ∈ kv :: rest ∧
      ∀ p ∈ kv :: rest, p.2 = countsMin (kv :: rest) → strLeB r p.1 = true := by
  have hm : countsMin (kv :: rest) = minNat kv.2 (rest.map Prod.snd) := rfl
  rw [hm] at h ⊢
  set m := minNat kv.2 (rest.map Prod.snd) with hmdef
  have hmmem : m ∈ kv.2 :: rest.map Prod.snd := minNat_mem _ _
  have hmmem' : m ∈ (kv :: rest).map Prod.snd := by
    rw [List.map_cons]; exact hmmem
  obtain ⟨p, hp, hp2⟩ := List.mem_map.mp hmmem'
  have hpfilter : p ∈ (kv :: rest).filter (fun q => decide (q.2 = m)) :=
    List.mem_filter.mpr ⟨hp, decide_eq_true hp2⟩
  have hlmem : p.1 ∈ ((kv :: rest).filter (fun q => decide (q.2 = m))).map Prod.fst :=
    List.mem_map.mpr ⟨p, hpfilter, rfl⟩
  cases hlows : ((kv :: rest).filter (fun q => decide (q.2 = m))).map Prod.fst with
  | nil => rw [hlows] at hlmem; exact absurd hlmem (List.not_mem_nil _)
  | cons b bs =>
    refine ⟨minStr b bs, ?_, ?_, ?_⟩
    · simp only [chooseBucket]
      rw [if_pos h, ← hmdef, hlows]
    · have hr : minStr b bs ∈ b :: bs := minStr_mem _ _
      rw [← hlows] at hr
      obtain ⟨q, hq, hq1⟩ := List.mem_map.mp hr
      obtain ⟨hqmem, hq2⟩ := List.mem_filter.mp hq
      have hq2' : q.2 = m := of_decide_eq_true hq2
      rw [← hq1, ← hq2', Prod.mk.eta]
      exact hqmem
    · intro p' hp' hp'2
      have hin : p'.1 ∈ b :: bs := by
        rw [← hlows]
        exact List.mem_map.mpr ⟨p', List.mem_filter.mpr
          ⟨hp', decide_eq_true hp'2⟩, rfl⟩
      exact minStr_leB _ _ _ hin

/-- Validity and value of `"zzz"`, the top of the key space. -/
theorem specVal_zzz : isValidKey "zzz" = true ∧ specVal "zzz" = 46655 := by
  decide

/-- Overflow branch of `_choose_bucket`: when every count is at or above
capacity and the largest key is not `"zzz"`, the result is the valid key
whose base-36 value is one more than the largest key's. -/
theorem chooseBucket_overflow (cap : Nat) (kv : String × Nat)
    (rest : List (String × Nat)) (h : cap ≤ countsMin (kv :: rest))
    (hvalid : ∀ p ∈ kv :: rest, isValidKey p.1 = true)
    (hnz : countsMaxKey (kv :: rest) ≠ "zzz") :
    ∃ r, chooseBucket cap (kv :: rest) = .ok r ∧ isValidKey r = true ∧
      specVal r = specVal (countsMaxKey (kv :: rest)) + 1 := by
  have hM : countsMaxKey (kv :: rest) = maxStr kv.1 (rest.map Prod.fst) := rfl
  set M := maxStr kv.1 (rest.map Prod.fst) with hMdef
  have hMmem : M ∈ kv.1 :: rest.map Prod.fst := maxStr_mem _ _
  have hMmem' : M ∈ (kv :: rest).map Prod.fst := by
    rw [List.map_cons]; exact hMmem
  obtain ⟨p, hp, hp1⟩ := List.mem_map.mp hMmem'
  have hMvalid : isValidKey M = true := hp1 ▸ hvalid p hp
  obtain ⟨hk2i, hbound⟩ := keyToInt_valid M hMvalid
  have hne : specVal M ≠ 46655 := by
    intro hcontra
    apply hnz
    rw [hM]
    exact specVal_injective M "zzz" hMvalid specVal_zzz.1
      (hcontra.trans specVal_zzz.2.symm)
  obtain ⟨s, hok, hsvalid, hsval⟩ :=
    intToKey_spec (specVal M + 1) (Nat.succ_pos _) (by omega)
  refine ⟨s, ?_, hsvalid, by rw [hM, hsval]⟩
  have h' : cap ≤ minNat kv.2 (rest.map Prod.snd) := h
  simp only [chooseBucket]
  rw [if_neg (not_lt.mpr h')]
  rw [← hMdef, hk2i]
  exact hok

/-! ### Ingest worker (`IngestWorker.run`, `SqlAlchemyMediaRepo.create_media_item`,
`paths.ensure_item_dir` / `move_into_item_dir`)

The worker is embedded as a fold over plan items.  Each item carries an
environment record saying whether its probe, hashing and filesystem move
would succeed (the outcomes of the external subprocess / filesystem calls).
The metadata store is a list of committed identity rows plus the pending
rows of the open outer transaction; `create_media_item`'s uniqueness SELECT
sees both (the session autoflushes pending rows).

Two behaviours of the source are modelled exactly as written, not as the
surrounding comments describe them:

  * every error path calls `rpt.add_error(...)` with a single argument,
    while `BaseReport.add_error(self, subject, message)` requires two, so
    the call raises `TypeError` and `run()` re-raises it (nothing catches
    it);

  * in the `except` handler the code calls `self.db.rollback()` after the
    `begin_nested()` context has already closed its savepoint, so the
    rollback discards every pending row of the outer transaction,
    including rows of earlier items that had already succeeded (their
    files, however, stay moved).

On a normal return the caller's transaction scope commits the pending
rows; on an escaped exception it rolls them back. -/

/-- Identity triplet stored by the repository (`media_folder`,
`identity_name`, `video_ext`). -/
structure MediaIdentityT where
  media_folder : String
  identity_name : String
  video_ext : String
deriving DecidableEq, Repr

/-- Fields of the `IngestPlanItem` dataclass that `IngestWorker.run`
reads. -/
structure WPlanItem where
  src : String
  bucket : String
  item : String
  ext : String
  kind : String
  supported : Bool
deriving DecidableEq, Repr

/-- Outcomes of the external calls made for one item: does the probe
subprocess succeed, do stat+hash succeed, does `shutil.move` succeed. -/
structure ItemEnv where
  probeOk : Bool
  hashOk : Bool
  moveOk : Bool
deriving DecidableEq, Repr

/-- The counters and error list of `IngestReport` that `run` touches. -/
structure IngestReportT where
  created : Nat
  moved : Nat
  errors : Nat
  errorDetails : List (String × String)
deriving DecidableEq, Repr

/-- Empty report at the start of a run. -/
def emptyReport : IngestReportT :=
  { created := 0, moved := 0, errors := 0, errorDetails := [] }

/-- Durable state outside the worker: committed store rows, pending rows
of the open outer transaction, source files still in the incoming area,
and files placed at their canonical destination. -/
structure World where
  committed : List MediaIdentityT
  pending : List MediaIdentityT
  incoming : List String
  placed : List MediaIdentityT
deriving DecidableEq, Repr

/-- Message of the exception escaping `run()` whenever an error path is
taken: `add_error` is called with one argument but requires two. -/
def addErrorTypeError : String :=
  "TypeError: add_error() missing 1 required positional argument: message"

/-- One iteration of the `for item in plan` loop of `IngestWorker.run`.
Returns the world after the iteration, the report after the iteration, and
whether the iteration raised (`TypeError` from the one-argument
`add_error` call). -/
def processOne (w : World) (r : IngestReportT) (it : WPlanItem) (env : ItemEnv) :
    World × IngestReportT × Bool :=
  if it.supported = false then
    (w, r, false)
  else if it.item = "" then
    (w, r, true)
  else if env.probeOk = false then
    (w, r, true)
  else if env.hashOk = false then
    (w, r, true)
  else
    let trip : MediaIdentityT := ⟨it.bucket, it.item, it.ext⟩
    if trip ∈ w.committed ++ w.pending then
      ({ w with pending := [] }, r, true)
    else if env.moveOk = false then
      ({ w with pending := [] }, r, true)
    else
      ({ w with
          pending := w.pending ++ [trip]
          incoming := w.incoming.erase it.src
          placed := trip :: w.placed.erase trip },
        { r with created := r.created + 1, moved := r.moved + 1 },
        false)

/-- Loop of `IngestWorker.run` over the plan: on the first raising
iteration the exception escapes `run()` (the outer transaction scope then
rolls back any still-pending rows); on normal completion the caller's
scope commits the pending rows. -/
def runWorkerGo (w : World) (r : IngestReportT) :
    List (WPlanItem × ItemEnv) → World × Except String IngestReportT
  | [] =>
    ({ w with committed := w.committed ++ w.pending, pending := [] }, .ok r)
  | (it, env) :: rest =>
    match processOne w r it env with
    | (w', _, true) => ({ w' with pending := [] }, .error addErrorTypeError)
    | (w', r', false) => runWorkerGo w' r' rest

/-- Embedding of `IngestWorker.run` on a non-empty, non-dry-run plan:
`.ok` is the returned report, `.error` the exception escaping `run()`. -/
def runWorker (w : World) (items : List (WPlanItem × ItemEnv)) :
    World × Except String IngestReportT :=
  runWorkerGo w emptyReport items

/-! ### Collage geometry (`VideoThumbnail.generate_collage`,
`VideoThumbnail._decide_width`) -/

/-- Embedding of `_decide_width`: the actual tile width given the source
width (if probed), the target width and the upscale policy string. -/
def decideWidth (srcWidth : Option Nat) (targetWidth : Nat)
    (allowUpscale : String) : Nat :=
  match srcWidth with
  | none => targetWidth
  | some w =>
    if w ≥ targetWidth then targetWidth
    else if allowUpscale = "never" then w
    else targetWidth

/-- Normalization of one percent value: values above 1 are divided by 100,
then clamped to `[0.01, 0.99]` and rounded to 4 decimal places. -/
def normPercent (p : ℚ) : ℚ :=
  let q := if p > 1 then p / 100 else p
  let c := min (max q (1 / 100)) (99 / 100)
  (round (c * 10000) : ℤ) / 10000

/-- Ascending insertion keeping values unique (models `sorted(set(ps))`). -/
def insertAscUnique (x : ℚ) : List ℚ → List ℚ
  | [] => [x]
  | y :: ys =>
    if x = y then y :: ys
    else if x < y then x :: y :: ys
    else y :: insertAscUnique x ys

/-- Embedding of `sorted(set(ps))` for the normalized percent list. -/
def sortedUnique (ps : List ℚ) : List ℚ :=
  ps.foldl (fun acc x => insertAscUnique x acc) []

/-- Geometry of `generate_collage`: returns `none` when the probed
duration is missing or non-positive (collage skipped); otherwise the
`(width, height)` of the composed sheet.  `frameHeight` abstracts the
pixel height of the frame extracted at a given timestamp. -/
def collageCanvas (durationSec : Option ℚ) (percents : List ℚ)
    (rows cols : Nat) (tileWidth : Nat) (spacing : Nat)
    (srcWidth : Option Nat) (allowUpscale : String)
    (frameHeight : ℚ → Nat) : Option (Nat × Nat) :=
  let dur := durationSec.getD 0
  if dur ≤ 0 then
    none
  else
    let ps := sortedUnique (percents.map normPercent)
    let times := ps.map (fun p => dur * p)
    let widthToUse := decideWidth srcWidth tileWidth allowUpscale
    let tmps := if rows * cols < times.length then times.take (rows * cols) else times
    let heights := tmps.map frameHeight
    let cellW := widthToUse
    let cellH :=
      match heights with
      | [] => cellW * 9 / 16
      | h :: hs => hs.foldl Nat.max h
    some (cols * cellW + (cols + 1) * spacing, rows * cellH + (rows + 1) * spacing)

/-- The nine fractions 0.1 .. 0.9. -/
def nineFractions : List ℚ :=
  [1/10, 2/10, 3/10, 4/10, 5/10, 6/10, 7/10, 8/10, 9/10]

/-! ### Supporting lemmas about `plan` -/

/-- The bucket sequence of a plan depends only on the initial counts and
the number of files: `_choose_bucket` reads nothing but the counts dict,
and the count increment happens for every file. -/
theorem planGo_buckets (cfg : PlannerCfg) (identityOf : String → String) :
    ∀ (files : List String) (counts : Counts),
      Except.map (fun items => items.map PlanItem.bucket)
        (planGo cfg identityOf counts files) =
      chainBuckets cfg.bucketMax counts files.length := by
  intro files
  induction files with
  | nil => intro counts; rfl
  | cons src rest ih =>
    intro counts
    simp only [planGo, List.length_cons, chainBuckets]
    cases hcb : chooseBucket cfg.bucketMax counts with
    | error e => rfl
    | ok b =>
      dsimp only
      have hih := ih (bump counts b)
      cases hrec : planGo cfg identityOf (bump counts b) rest with
      | error e =>
        rw [hrec] at hih
        dsimp only [Except.map] at hih ⊢
        rw [← hih]
      | ok items =>
        rw [hrec] at hih
        dsimp only [Except.map] at hih ⊢
        rw [← hih]
        rfl

/-- Every produced plan item carries the identity generated from its own
source path, and the extension computed from it. -/
theorem planGo_item_fields (cfg : PlannerCfg) (identityOf : String → String) :
    ∀ (files : List String) (counts : Counts) (items : List PlanItem),
      planGo cfg identityOf counts files = .ok items →
      ∀ pi ∈ items, pi.item = identityOf pi.src ∧ pi.ext = extOf pi.src := by
  intro files
  induction files with
  | nil =>
    intro counts items h pi hpi
    simp only [planGo] at h
    cases h
    exact absurd hpi (List.not_mem_nil _)
  | cons src rest ih =>
    intro counts items h pi hpi
    simp only [planGo] at h
    revert h
    cases hcb : chooseBucket cfg.bucketMax counts with
    | error e => intro h; cases h
    | ok b =>
      intro h
      try dsimp only at h
      revert h
      cases hrec : planGo cfg identityOf (bump counts b) rest with
      | error e => intro h; cases h
      | ok tailItems =>
        intro h
        try dsimp only at h
        cases h
        rcases List.mem_cons.mp hpi with rfl | htail
        · exact ⟨rfl, rfl⟩
        · exact ih (bump counts b) tailItems hrec pi htail

/-- A plan item whose position is in range, addressed with `List.getD`, is
a member of the plan. -/
theorem getD_mem {α : Type} (l : List α) (i : Nat) (d : α) (h : i < l.length) :
    l.getD i d ∈ l := by
  rw [List.getD_eq_getElem l d h]
  exact List.getElem_mem h

/-- Default plan item used with `List.getD`. -/
def dummyPlanItem : PlanItem :=
  { src := "", ext := "", kind := "unknown", supported := false, bucket := ""
    item := "", media_folder := "", identity_name := "", dest_rel_dir := ""
    dest_filename := "" }

/-! ### Claim theorems -/

/-- C6.  Base-36 bucket-key round-trip.  For every valid 3-character key,
`keyToInt` returns its base-36 reading, which lies in 0..46655, and for
every valid key other than `"000"` converting the value back returns the
original key.  At the failing input itself: `keyToInt "000" = 0`, yet
`intToKey 0` raises ValueError — whose own message states the accepted
range is 0..46655 — so the round-trip claimed for the whole key space
fails exactly at `"000"`; converting 46656 passes the source guard
(`0 < val <= 36 ** 3`) and then fails with IndexError rather than
producing a key. -/
theorem claim_c6_base36_roundtrip :
    (∀ s, isValidKey s = true → keyToInt s = .ok (specVal s) ∧ specVal s ≤ 46655) ∧
    (∀ s, isValidKey s = true → s ≠ "000" → intToKey (specVal s) = .ok s) ∧
    (keyToInt "000" = .ok 0 ∧
      intToKey 0 = .error "n must be in range 0..46655 (fits in 3 base-36 chars)") ∧
    intToKey 46656 = .error "IndexError: string index out of range" := by
  refine ⟨fun s h => keyToInt_valid s h,
    fun s h h0 => intToKey_specVal s h h0, ⟨?_, ?_⟩, ?_⟩ <;> rfl

/-- Witness for C6 at the concrete key `"0a5"` (value 365). -/
theorem claim_c6_witness :
    isValidKey "0a5" = true ∧ "0a5" ≠ "000" ∧
    keyToInt "0a5" = .ok (specVal "0a5") ∧ specVal "0a5" ≤ 46655 ∧
    intToKey (specVal "0a5") = .ok "0a5" := by
  have h1 := claim_c6_base36_roundtrip.1 "0a5" (by decide)
  have h2 := claim_c6_base36_roundtrip.2.1 "0a5" (by decide) (by decide)
  exact ⟨by decide, by decide, h1.1, h1.2, h2⟩

/-- C1.  Bucket selection.  For every nonempty counts mapping and every
capacity: when the minimal count is strictly below capacity,
`_choose_bucket` returns a key that holds the minimal count and is
lexicographically least among the tied keys; when every count is at or
above capacity (keys valid, largest key not `"zzz"`), it returns exactly
the base-36 successor of the lexicographically largest known key — the
unique valid key whose value is one more.  With capacity 2 and counts
`000 -> 2, 001 -> 0` obtained from the repository fast path, planning
three files assigns buckets `001, 001, 002` in that order. -/
theorem claim_c1_bucket_selection :
    (∀ (cap : Nat) (kv : String × Nat) (rest : List (String × Nat)),
      (countsMin (kv :: rest) < cap →
        ∃ r, chooseBucket cap (kv :: rest) = .ok r ∧
          (r, countsMin (kv :: rest)) ∈ kv :: rest ∧
          ∀ p ∈ kv :: rest, p.2 = countsMin (kv :: rest) → strLeB r p.1 = true) ∧
      (cap ≤ countsMin (kv :: rest) →
        (∀ p ∈ kv :: rest, isValidKey p.1 = true) →
        countsMaxKey (kv :: rest) ≠ "zzz" →
        countsMaxKey (kv :: rest) ∈ (kv :: rest).map Prod.fst ∧
        (∀ k ∈ (kv :: rest).map Prod.fst,
          strLeB k (countsMaxKey (kv :: rest)) = true) ∧
        ∃ r, chooseBucket cap (kv :: rest) = .ok r ∧ isValidKey r = true ∧
          specVal r = specVal (countsMaxKey (kv :: rest)) + 1 ∧
          ∀ s, isValidKey s = true →
            specVal s = specVal (countsMaxKey (kv :: rest)) + 1 → s = r)) ∧
    (planViaRepo ⟨["mp4"], [], [], 2⟩ (fun _ => "aaaaaaaaaaaa")
        [("000", 2), ("001", 0)] ["f1.mp4", "f2.mp4", "f3.mp4"]).map
      (fun items => items.map PlanItem.bucket) = .ok ["001", "001", "002"] := by
  refine ⟨fun cap kv rest => ⟨fun hlt => chooseBucket_select cap kv rest hlt,
    fun hge hvalid hnz => ?_⟩, by rfl⟩
  obtain ⟨r, hok, hrvalid, hrval⟩ := chooseBucket_overflow cap kv rest hge hvalid hnz
  refine ⟨?_, ?_, r, hok, hrvalid, hrval, ?_⟩
  · rw [List.map_cons]
    exact maxStr_mem _ _
  · intro k hk
    rw [List.map_cons] at hk
    exact maxStr_geB _ _ _ hk
  · intro s hs hsval
    exact specVal_injective s r hs hrvalid (hsval.trans hrval.symm)

/-- Witness for C1: the selection branch at capacity 2 over counts
`000 -> 2, 001 -> 0`, and the overflow branch at capacity 1 over the
single full bucket `005`. -/
theorem claim_c1_witness :
    (countsMin [("000", 2), ("001", 0)] < 2 ∧
      ∃ r, chooseBucket 2 [("000", 2), ("001", 0)] = .ok r ∧
        (r, countsMin [("000", 2), ("001", 0)]) ∈ [("000", 2), ("001", 0)] ∧
        ∀ p ∈ [("000", 2), ("001", 0)],
          p.2 = countsMin [("000", 2), ("001", 0)] → strLeB r p.1 = true) ∧
    (1 ≤ countsMin [("005", 3)] ∧
      countsMaxKey [("005", 3)] ∈ [("005", 3)].map Prod.fst ∧
      (∀ k ∈ [("005", 3)].map Prod.fst,
        strLeB k (countsMaxKey [("005", 3)]) = true) ∧
      ∃ r, chooseBucket 1 [("005", 3)] = .ok r ∧ isValidKey r = true ∧
        specVal r = specVal (countsMaxKey [("005", 3)]) + 1 ∧
        ∀ s, isValidKey s = true →
          specVal s = specVal (countsMaxKey [("005", 3)]) + 1 → s = r) := by
  constructor
  · exact ⟨by decide,
      (claim_c1_bucket_selection.1 2 ("000", 2) [("001", 0)]).1 (by decide)⟩
  · refine ⟨by decide, ?_⟩
    exact (claim_c1_bucket_selection.1 1 ("005", 3) []).2 (by decide)
      (by decide) (by decide)

/-- C7.  Bucket-count key normalization.  `get_bucket_counts` on the
repository fast path stores the returned keys verbatim (`counts[b] =
int(n)`), so heterogeneous keys such as `"2"`, `"01"`, `"a9"` are NOT
normalized to `"002"`, `"001"`, `"0a9"`, and `_choose_bucket` then selects
the raw key `"2"` — not a canonical 3-character base-36 key.  (The
repository's own test `test_normalizes_incoming_bucket_keys_from_repo`
expects the normalized keys to be present.) -/
theorem claim_c7_keys_used_verbatim :
    ("002" ∉ (getBucketCountsFast [("2", 0), ("01", 3), ("a9", 0)]).map Prod.fst) ∧
    ("001" ∉ (getBucketCountsFast [("2", 0), ("01", 3), ("a9", 0)]).map Prod.fst) ∧
    ("0a9" ∉ (getBucketCountsFast [("2", 0), ("01", 3), ("a9", 0)]).map Prod.fst) ∧
    ("2" ∈ (getBucketCountsFast [("2", 0), ("01", 3), ("a9", 0)]).map Prod.fst) ∧
    ("01" ∈ (getBucketCountsFast [("2", 0), ("01", 3), ("a9", 0)]).map Prod.fst) ∧
    ("a9" ∈ (getBucketCountsFast [("2", 0), ("01", 3), ("a9", 0)]).map Prod.fst) ∧
    chooseBucket 100 (getBucketCountsFast [("2", 0), ("01", 3), ("a9", 0)]) =
      .ok "2" ∧
    isValidKey "2" = false := by
  refine ⟨by decide, by decide, by decide, by decide, by decide, by decide,
    by rfl, by rfl⟩

/-- C8 counterexample.  Planning the same source path twice (capacity 2,
no existing counts, identity generation being a deterministic function of
the path) yields two plan items with the identical identity triplet
`("000", identity, "mp4")` — the claim that no two plan items of one
`plan()` call share a triplet fails on duplicate inputs. -/
theorem claim_c8_counterexample :
    (planFrom ⟨["mp4"], [], [], 2⟩ (fun _ => "aaaaaaaaaaaa") []
        ["/in/a.mp4", "/in/a.mp4"]).map (fun items => items.map tripletOf) =
      .ok [("000", "aaaaaaaaaaaa", "mp4"), ("000", "aaaaaaaaaaaa", "mp4")] := by
  rfl

/-- C8 amended.  Two plan items of one `plan()` call whose source paths
are assigned distinct identity tokens never share an identity triplet
(the triplets differ in the item component); only inputs with equal
identity tokens — e.g. the same path listed twice — can collide. -/
theorem claim_c8_distinct_identity_triplets :
    ∀ (cfg : PlannerCfg) (identityOf : String → String) (counts : Counts)
      (files : List String) (items : List PlanItem) (i j : Nat),
      planFrom cfg identityOf counts files = .ok items →
      i < items.length → j < items.length →
      identityOf (items.getD i dummyPlanItem).src ≠
        identityOf (items.getD j dummyPlanItem).src →
      tripletOf (items.getD i dummyPlanItem) ≠
        tripletOf (items.getD j dummyPlanItem) := by
  intro cfg idf counts files items i j h hi hj hne heq
  apply hne
  have hfi := (planGo_item_fields cfg idf files counts items h _
    (getD_mem items i dummyPlanItem hi)).1
  have hfj := (planGo_item_fields cfg idf files counts items h _
    (getD_mem items j dummyPlanItem hj)).1
  have hitem : (items.getD i dummyPlanItem).item =
      (items.getD j dummyPlanItem).item :=
    congrArg (fun t => t.2.1) heq
  rw [← hfi, ← hfj]
  exact hitem

/-- Witness for C8 amended: two distinct paths receive distinct triplets. -/
theorem claim_c8_witness :
    tripletOf (((planFrom ⟨["mp4"], [], [], 2⟩ (fun s => s) []
        ["a.mp4", "b.mp4"]).toOption.getD []).getD 0 dummyPlanItem) ≠
      tripletOf (((planFrom ⟨["mp4"], [], [], 2⟩ (fun s => s) []
        ["a.mp4", "b.mp4"]).toOption.getD []).getD 1 dummyPlanItem) :=
  claim_c8_distinct_identity_triplets ⟨["mp4"], [], [], 2⟩ (fun s => s) []
    ["a.mp4", "b.mp4"]
    ((planFrom ⟨["mp4"], [], [], 2⟩ (fun s => s) []
      ["a.mp4", "b.mp4"]).toOption.getD [])
    0 1 (by rfl) (by decide) (by decide) (by decide)

/-- Digest function standing in for `hashlib.sha1(...).hexdigest()`: every
value is a 40-character hex string. -/
def digest40 : String → String :=
  fun _ => "0123456789abcdef0123456789abcdef01234567"

/-- C10.  Every plan item — supported or not — is assigned a bucket and a
12-character identity, and the chosen bucket's in-memory count is
incremented for it: the bucket sequence is a function of the initial
counts and the number of files alone (`chainBuckets`), so unsupported
files consume capacity and shift later choices (concretely, with capacity
1 the unsupported `junk.xyz` takes bucket `000` and pushes `a.mp4` to
`001`, while `a.mp4` alone would get `000`); `IngestWorker.run`
nevertheless skips unsupported items without touching the store, the
filesystem or the report. -/
theorem claim_c10_unsupported_consume_capacity :
    (∀ (cfg : PlannerCfg) (identityOf : String → String) (counts : Counts)
        (files : List String),
      Except.map (fun items => items.map PlanItem.bucket)
        (planGo cfg identityOf counts files) =
      chainBuckets cfg.bucketMax counts files.length) ∧
    (∀ (digest : String → String) (p : String),
      (∀ s, (digest s).data.length = 40) →
      (identityFor digest p).data.length = 12) ∧
    (∀ (cfg : PlannerCfg) (digest : String → String) (counts : Counts)
        (files : List String) (items : List PlanItem),
      planFrom cfg (identityFor digest) counts files = .ok items →
      (∀ s, (digest s).data.length = 40) →
      ∀ pi ∈ items, (pi.item).data.length = 12 ∧
        pi.item = identityFor digest pi.src) ∧
    ((planFrom ⟨["mp4"], [], [], 1⟩ (fun s => s) [] ["junk.xyz", "a.mp4"]).map
        (fun items => items.map (fun pi => (pi.bucket, pi.supported))) =
      .ok [("000", false), ("001", true)] ∧
      (planFrom ⟨["mp4"], [], [], 1⟩ (fun s => s) [] ["a.mp4"]).map
        (fun items => items.map (fun pi => (pi.bucket, pi.supported))) =
      .ok [("000", true)]) ∧
    (∀ (w : World) (r : IngestReportT) (it : WPlanItem) (env : ItemEnv),
      it.supported = false → processOne w r it env = (w, r, false)) := by
  refine ⟨fun cfg idf counts files => planGo_buckets cfg idf files counts,
    ?_, ?_, ⟨by rfl, by rfl⟩, ?_⟩
  · intro digest p h
    simp [identityFor, List.length_take, h]
  · intro cfg digest counts files items h hdig pi hpi
    have hf := (planGo_item_fields cfg (identityFor digest) files counts items h
      pi hpi).1
    refine ⟨?_, hf⟩
    rw [hf]
    simp [identityFor, List.length_take, hdig]
  · intro w r it env h
    simp [processOne, h]

/-- Witness for C10: the 12-character identity on a concrete digest and
path, the plan-item fields at a planned item, and the worker silently
skipping a concrete unsupported item. -/
theorem claim_c10_witness :
    (identityFor digest40 "/in/x.mp4").data.length = 12 ∧
    ((((planFrom ⟨["mp4"], [], [], 2⟩ (identityFor digest40) []
        ["/in/x.mp4"]).toOption.getD []).getD 0 dummyPlanItem).item).data.length
      = 12 ∧
    processOne ⟨[], [], [], []⟩ emptyReport
      ⟨"/in/j.xyz", "000", "iiiiiiiiiiii", "xyz", "unknown", false⟩
      ⟨true, true, true⟩ = (⟨[], [], [], []⟩, emptyReport, false) := by
  refine ⟨claim_c10_unsupported_consume_capacity.2.1 digest40 "/in/x.mp4"
      (fun _ => rfl), ?_, ?_⟩
  · exact (claim_c10_unsupported_consume_capacity.2.2.1 ⟨["mp4"], [], [], 2⟩
      digest40 [] ["/in/x.mp4"]
      ((planFrom ⟨["mp4"], [], [], 2⟩ (identityFor digest40) []
        ["/in/x.mp4"]).toOption.getD [])
      (by rfl) (fun _ => rfl) _
      (getD_mem _ 0 dummyPlanItem (by decide))).1
  · exact claim_c10_unsupported_consume_capacity.2.2.2.2 ⟨[], [], [], []⟩
      emptyReport ⟨"/in/j.xyz", "000", "iiiiiiiiiiii", "xyz", "unknown", false⟩
      ⟨true, true, true⟩ rfl

/-! Concrete fixtures for the worker claims. -/

/-- Source path of the first fixture item. -/
def srcA : String := "/incoming/a.mp4"

/-- Source path of the second fixture item. -/
def srcB : String := "/incoming/b.mp4"

/-- A supported plan item for `srcA`. -/
def itemA : WPlanItem := ⟨srcA, "000", "aaaaaaaaaaaa", "mp4", "video", true⟩

/-- A supported plan item for `srcB`. -/
def itemB : WPlanItem := ⟨srcB, "000", "bbbbbbbbbbbb", "mp4", "video", true⟩

/-- Identity triplet of `itemA`. -/
def tripA : MediaIdentityT := ⟨"000", "aaaaaaaaaaaa", "mp4"⟩

/-- Environment in which probe, hash and move all succeed. -/
def envOk : ItemEnv := ⟨true, true, true⟩

/-- Environment in which the probe subprocess raises. -/
def envProbeFail : ItemEnv := ⟨false, true, true⟩

/-- Environment in which probe and hash succeed but the filesystem move
raises (e.g. `PermissionError`). -/
def envMoveFail : ItemEnv := ⟨true, true, false⟩

/-- C2.  A per-item failure does NOT stay inside the run: the probe
failure path calls `rpt.add_error(msg)` with one argument, while
`BaseReport.add_error(self, subject, message)` requires two, so `run()`
raises `TypeError` instead of recording a (subject, message) pair, and the
following intact item is never processed. -/
theorem claim_c2_per_item_failure_raises :
    runWorker ⟨[], [], [srcA, srcB], []⟩
        [(itemA, envProbeFail), (itemB, envOk)] =
      (⟨[], [], [srcA, srcB], []⟩, .error addErrorTypeError) := by
  rfl

/-- C3.  Atomic placement is violated across items: after the first item
fully succeeds (row pending, file moved) and the second item's move
raises, the `except` handler's `session.rollback()` — issued after the
savepoint context already closed — discards the whole outer transaction,
then the one-argument `add_error` call raises `TypeError` out of `run()`;
the escaped exception makes the caller's transaction scope roll back, so
the first item's moved file remains on disk with no committed store row. -/
theorem claim_c3_moved_file_without_row :
    runWorker ⟨[], [], [srcA, srcB], []⟩ [(itemA, envOk), (itemB, envMoveFail)] =
      (⟨[], [], [srcB], [tripA]⟩, .error addErrorTypeError) ∧
    tripA ∈ World.placed ⟨[], [], [srcB], [tripA]⟩ ∧
    tripA ∉ World.committed ⟨[], [], [srcB], [tripA]⟩ := by
  refine ⟨by rfl, by decide, by decide⟩

/-- C4.  Probe, hash and insert succeed but the move raises: no store row
for the identity triplet persists and the source file stays in incoming —
but instead of a returned report with `created = 0, moved = 0, errors = 1`,
`run()` raises `TypeError` from the one-argument `add_error` call and
returns no report at all (the worker also never increments the report's
`errors` counter anywhere). -/
theorem claim_c4_move_failure_leaves_no_row :
    runWorker ⟨[], [], [srcA], []⟩ [(itemA, envMoveFail)] =
      (⟨[], [], [srcA], []⟩, .error addErrorTypeError) := by
  rfl

/-- C5.  Re-ingesting an already-placed identity triplet: the uniqueness
check in `create_media_item` raises before inserting, so no second row is
created, no move is attempted, and both the placed file and the source
file are untouched — but the conflict is NOT recorded against the report:
the one-argument `add_error` call raises `TypeError` out of `run()`. -/
theorem claim_c5_conflict_no_duplicate_but_raises :
    runWorker ⟨[tripA], [], [srcA], [tripA]⟩ [(itemA, envOk)] =
      (⟨[tripA], [], [srcA], [tripA]⟩, .error addErrorTypeError) := by
  rfl

/-- C9.  Contact-sheet geometry: for a known positive duration, the nine
fractions 0.1..0.9, grid (3,3) and a decided tile width of 400, the
collage is composed (a single image) and its canvas width is exactly
`3*400 + 4*spacing`. -/
theorem claim_c9_collage_canvas_width :
    ∀ (dur : ℚ) (spacing : Nat) (srcWidth : Option Nat) (policy : String)
      (frameHeight : ℚ → Nat),
      0 < dur →
      decideWidth srcWidth 400 policy = 400 →
      Option.map Prod.fst (collageCanvas (some dur) nineFractions 3 3 400
        spacing srcWidth policy frameHeight) = some (3 * 400 + 4 * spacing) := by
  intro dur spacing srcW policy frameH hdur hw
  unfold collageCanvas
  simp only [Option.getD_some]
  rw [if_neg (not_le.mpr hdur)]
  dsimp only [Option.map]
  rw [hw]

/-- Witness for C9: a 100-second video, spacing 6, source width 1920 and
the default upscale policy give canvas width 1224 = 3*400 + 4*6. -/
theorem claim_c9_witness :
    (0 : ℚ) < 100 ∧ decideWidth (some 1920) 400 "if_smaller_than" = 400 ∧
    Option.map Prod.fst (collageCanvas (some 100) nineFractions 3 3 400 6
      (some 1920) "if_smaller_than" (fun _ => 225)) = some 1224 := by
  refine ⟨by norm_num, by rfl, ?_⟩
  have h := claim_c9_collage_canvas_width 100 6 (some 1920) "if_smaller_than"
    (fun _ => 225) (by norm_num) (by rfl)
  rw [show (1224 : Nat) = 3 * 400 + 4 * 6 by norm_num]
  exact h

end Hexmedia


